import Mathlib

/-!
Verification of the tree-processing and mindmap pipeline of bubbledive
(src/app.py): tooltip truncation, recursive tooltip normalization,
tree flattening to node/link lists, the plain-text outline renderer,
the embedded click handler, and the embedded label-wrapping routine.

Python strings are modelled as lists of characters; Python dict fields
that may be absent or None are modelled with nested Options; machine
integers do not occur in the modelled code.
-/

namespace BubbleDive

/-- Python strings are modelled as lists of characters. -/
abbrev Str := List Char

/-- Converts a Lean string literal into the character-list model. -/
def str (s : String) : Str := s.data

/-- The characters removed by Python str.strip with no arguments
(ASCII whitespace). -/
def isPyWS (c : Char) : Bool :=
  c = ' ' || c = '\t' || c = '\n' || c = '\r' || c = '\x0b' || c = '\x0c'

/-- Model of tooltip.replace("\n", " ").replace("\r", " ") from
truncate_tooltip (src/app.py line 26): both replaced patterns are single
characters, so the two replacements act pointwise. -/
def collapseNL (s : Str) : Str :=
  s.map (fun c => if c = '\n' || c = '\r' then ' ' else c)

/-- Model of Python str.strip(): drop ASCII whitespace from both ends. -/
def pyStrip (s : Str) : Str :=
  ((s.dropWhile isPyWS).reverse.dropWhile isPyWS).reverse

/-- Model of Python str.rfind(c): the largest index holding c, or -1
when c does not occur. -/
def pyRfind (s : Str) (c : Char) : Int :=
  match s with
  | [] => -1
  | a :: rest =>
    let r := pyRfind rest c
    if 0 ≤ r then r + 1 else if a = c then 0 else -1

/-- The three-character ellipsis marker appended by truncation. -/
def ell : Str := str "..."

/-- Model of truncate_tooltip (src/app.py lines 22-30).  The tooltip
argument is a Python value that may be None (modelled as `none`) or a
string; `if not tooltip` makes both None and the empty string return "". -/
def truncate_tooltip (tooltip : Option Str) (max_len : Nat) : Str :=
  match tooltip with
  | none => []
  | some t0 =>
    if t0 = [] then []
    else
      let t := pyStrip (collapseNL t0)
      if t.length ≤ max_len then t
      else
        let cutoff := pyRfind (t.take max_len) ' '
        if 0 < cutoff then t.take cutoff.toNat ++ ell
        else t.take max_len ++ ell

/-- The first space-delimited word of a string (used to state the
word-boundary property of truncation). -/
def firstWord (s : Str) : Str := s.takeWhile (fun c => c != ' ')

example : truncate_tooltip (some (str "The quick brown fox jumps")) 10 = str "The quick..." := by decide

example : truncate_tooltip (some (str "aaaaaaaa bcdefgh")) 10 = str "aaaaaaaa..." := by decide

example :
    truncate_tooltip (some (truncate_tooltip (some (str "aaaaaaaa bcdefgh")) 10)) 10
      ≠ truncate_tooltip (some (str "aaaaaaaa bcdefgh")) 10 := by decide

mutual
/-- Model of a raw insight-tree dict: name and type fields may be absent
(`none`); the tooltip field may be absent (`none`) or present as Python
None (`some none`) or a string; the children field is three-valued. -/
inductive InsightNode : Type where
  | mk (name : Option Str) (tooltip : Option (Option Str)) (ntype : Option Str)
      (children : Children) : InsightNode
/-- The state of the children field of a node dict: absent from the dict,
present as Python None, or present as a list. -/
inductive Children : Type where
  | missing : Children
  | null : Children
  | clist (kids : ChildList) : Children
/-- A list of child nodes. -/
inductive ChildList : Type where
  | nil : ChildList
  | cons (hd : InsightNode) (tl : ChildList) : ChildList
end

/-- The name field of a node, as read by tree.get("name"). -/
def nameF : InsightNode → Option Str
  | .mk n _ _ _ => n

/-- The tooltip field of a node (three-valued). -/
def tooltipF : InsightNode → Option (Option Str)
  | .mk _ tt _ _ => tt

/-- The children field of a node. -/
def childrenF : InsightNode → Children
  | .mk _ _ _ c => c

/-- Model of node.get("tooltip", ""): an absent field yields the empty
string; a present field yields its value (which may be Python None). -/
def getTooltip : Option (Option Str) → Option Str
  | none => some []
  | some v => v

/-- Python truthiness of a string-or-None value: None and the empty
string are falsy. -/
def pyTruthy : Option Str → Bool
  | none => false
  | some s => !s.isEmpty

mutual
/-- Model of process_tree_tooltips (src/app.py lines 32-38): copy the
node dict, overwrite its tooltip with the truncation of
tree.get("tooltip", ""), and rebuild the children list when the field is
present and not None. -/
def process_tree_tooltips : InsightNode → Nat → InsightNode
  | .mk n tt ty c, m =>
    .mk n (some (some (truncate_tooltip (getTooltip tt) m))) ty (processChildren c m)
/-- The children step of process_tree_tooltips: an absent or None
children field is left untouched; a list is rebuilt element-wise. -/
def processChildren : Children → Nat → Children
  | .missing, _ => .missing
  | .null, _ => .null
  | .clist ks, m => .clist (processList ks m)
/-- Element-wise normalization of a children list. -/
def processList : ChildList → Nat → ChildList
  | .nil, _ => .nil
  | .cons k ks, m => .cons (process_tree_tooltips k m) (processList ks m)
end

/-- A flattened graph node as built by flatten_tree_to_nodes_links:
id is tree.get("name") (None when absent), tooltip is
tree.get("tooltip", ""), the type tag defaults to the empty string, and
parent/parent_tooltip are the values passed down from the parent call. -/
structure GNode where
  id : Option Str
  tooltip : Option Str
  ntype : Str
  parent : Option Str
  parent_tooltip : Option Str
deriving DecidableEq, Repr

/-- A flattened link record {source, target}. -/
structure GLink where
  source : Option Str
  target : Option Str
deriving DecidableEq, Repr

mutual
/-- Model of flatten_tree_to_nodes_links (src/app.py lines 40-58):
pre-order traversal emitting one node record per visited node, and one
link record when the parent name passed down is truthy. -/
def flatten_tree_to_nodes_links : InsightNode → Option Str → Option Str → List GNode × List GLink
  | .mk n tt ty c, parent_name, parent_tooltip =>
    let this_id := n
    let tooltip := getTooltip tt
    let node_type := ty.getD []
    let rest := flattenChildren c this_id tooltip
    (⟨this_id, tooltip, node_type, parent_name, parent_tooltip⟩ :: rest.1,
     (if pyTruthy parent_name then [⟨parent_name, this_id⟩] else []) ++ rest.2)
/-- The children step of flattening: tree.get("children", []) or []
iterates the list when present and non-None, else nothing. -/
def flattenChildren : Children → Option Str → Option Str → List GNode × List GLink
  | .missing, _, _ => ([], [])
  | .null, _, _ => ([], [])
  | .clist ks, pn, pt => flattenList ks pn pt
/-- Sequential flattening of a children list into shared accumulators,
rendered functionally as list concatenation. -/
def flattenList : ChildList → Option Str → Option Str → List GNode × List GLink
  | .nil, _, _ => ([], [])
  | .cons k ks, pn, pt =>
    let a := flatten_tree_to_nodes_links k pn pt
    let b := flattenList ks pn pt
    (a.1 ++ b.1, a.2 ++ b.2)
end

mutual
/-- Model of tree_to_text (src/app.py lines 60-74): one dash-marked name
line per node (missing name rendered as "N/A"), an indented
parenthesized tooltip line when the tooltip is truthy, then the children
when the field is present and not None, at level + 1. -/
def tree_to_text : InsightNode → Nat → Str
  | .mk n tt _ c, level =>
    let indent := List.replicate (2 * level) ' '
    let name := n.getD (str "N/A")
    let tooltip := getTooltip tt
    indent ++ str "- " ++ name ++ ['\n']
      ++ (if pyTruthy tooltip then indent ++ str "  (" ++ tooltip.getD [] ++ [')', '\n'] else [])
      ++ textChildren c (level + 1)
/-- The children step of tree_to_text: emit nothing when the field is
absent or None. -/
def textChildren : Children → Nat → Str
  | .missing, _ => []
  | .null, _ => []
  | .clist ks, level => textList ks level
/-- Sequential rendering of a children list. -/
def textList : ChildList → Nat → Str
  | .nil, _ => []
  | .cons k ks, level => tree_to_text k level ++ textList ks level
end

mutual
/-- Number of tree nodes reachable from a root (children reachable only
through a present, non-None children list). -/
def nodeCount : InsightNode → Nat
  | .mk _ _ _ c => 1 + countChildren c
/-- Node count below a children field. -/
def countChildren : Children → Nat
  | .missing => 0
  | .null => 0
  | .clist ks => countList ks
/-- Node count of a children list. -/
def countList : ChildList → Nat
  | .nil => 0
  | .cons k ks => nodeCount k + countList ks
end

mutual
/-- Specification-side description, following the spec's words, of what
flattening must emit for the nodes: the (name, parent name) pairs of all
reachable nodes in depth-first pre-order, the root paired with the
parent value passed in. -/
def specPairs : InsightNode → Option Str → List (Option Str × Option Str)
  | .mk n _ _ c, pn => (n, pn) :: specPairsChildren c n
/-- Pre-order (name, parent name) pairs below a children field. -/
def specPairsChildren : Children → Option Str → List (Option Str × Option Str)
  | .missing, _ => []
  | .null, _ => []
  | .clist ks, pn => specPairsList ks pn
/-- Pre-order (name, parent name) pairs of a children list. -/
def specPairsList : ChildList → Option Str → List (Option Str × Option Str)
  | .nil, _ => []
  | .cons k ks, pn => specPairs k pn ++ specPairsList ks pn
end

mutual
/-- Specification-side description, following the spec's words, of the
edges below a given root: one (parent name, child name) edge per
non-root reachable node, in depth-first pre-order. -/
def specEdges : InsightNode → List (Option Str × Option Str)
  | .mk n _ _ c => specEdgesChildren c n
/-- Pre-order edges below a children field whose owner is named pn. -/
def specEdgesChildren : Children → Option Str → List (Option Str × Option Str)
  | .missing, _ => []
  | .null, _ => []
  | .clist ks, pn => specEdgesList ks pn
/-- Pre-order edges of a children list whose parent is named pn: the
edge into each child precedes the edges of the child's subtree. -/
def specEdgesList : ChildList → Option Str → List (Option Str × Option Str)
  | .nil, _ => []
  | .cons k ks, pn => (pn, nameF k) :: (specEdges k ++ specEdgesList ks pn)
end

mutual
/-- Every reachable node carries a present, non-empty name. -/
def namesOK : InsightNode → Bool
  | .mk n _ _ c =>
    (match n with
     | some s => !s.isEmpty
     | none => false) && namesOKChildren c
/-- namesOK below a children field. -/
def namesOKChildren : Children → Bool
  | .missing => true
  | .null => true
  | .clist ks => namesOKList ks
/-- namesOK of a children list. -/
def namesOKList : ChildList → Bool
  | .nil => true
  | .cons k ks => namesOK k && namesOKList ks
end

example :
    flatten_tree_to_nodes_links
      (.mk (some (str "R")) none none
        (.clist (.cons (.mk (some (str "A")) (some (some (str "ta"))) none .missing)
          (.cons (.mk (some (str "B")) none none .null) .nil)))) none none
    = ([⟨some (str "R"), some [], [], none, none⟩,
        ⟨some (str "A"), some (str "ta"), [], some (str "R"), some []⟩,
        ⟨some (str "B"), some [], [], some (str "R"), some []⟩],
       [⟨some (str "R"), some (str "A")⟩, ⟨some (str "R"), some (str "B")⟩]) := by decide

section StringLemmas

variable {p : Char → Bool}

theorem dropWhile_head_false {l : List Char} {a : Char} {rest : List Char}
    (h : l.dropWhile p = a :: rest) : p a = false := by
  induction l with
  | nil => simp [List.dropWhile] at h
  | cons b t ih =>
    by_cases hb : p b
    · rw [List.dropWhile_cons_of_pos hb] at h
      exact ih h
    · rw [List.dropWhile_cons_of_neg hb] at h
      cases h
      simpa using hb

theorem dropWhile_eq_self_of_head {l : List Char} {a : Char}
    (hhead : l.head? = some a) (ha : p a = false) : l.dropWhile p = l := by
  cases l with
  | nil => rfl
  | cons b t =>
    simp only [List.head?_cons, Option.some.injEq] at hhead
    subst hhead
    exact List.dropWhile_cons_of_neg (by simp [ha])

theorem dropWhile_getLast?_eq {l : List Char} (h : l.dropWhile p ≠ []) :
    (l.dropWhile p).getLast? = l.getLast? := by
  induction l with
  | nil => simp [List.dropWhile] at h
  | cons b t ih =>
    by_cases hb : p b
    · rw [List.dropWhile_cons_of_pos hb] at h ⊢
      rw [ih h]
      have ht : t ≠ [] := by
        intro he
        rw [he] at h
        simp [List.dropWhile] at h
      cases t with
      | nil => exact absurd rfl ht
      | cons c u => simp [List.getLast?_cons_cons]
    · rw [List.dropWhile_cons_of_neg hb]

theorem mem_of_mem_dropWhile {l : List Char} {c : Char}
    (h : c ∈ l.dropWhile p) : c ∈ l :=
  (List.dropWhile_sublist p (l := l)).mem h

theorem pyStrip_head_not_ws {s : Str} {a : Char} {rest : Str}
    (h : pyStrip s = a :: rest) : isPyWS a = false := by
  unfold pyStrip at h
  set l1 := s.dropWhile isPyWS with hl1
  set d2 := l1.reverse.dropWhile isPyWS with hd2
  have hne : d2 ≠ [] := by
    intro he
    rw [he] at h
    simp at h
  have h1 : (d2.reverse).head? = some a := by rw [h]; rfl
  rw [List.head?_reverse] at h1
  have h2 : l1.reverse.getLast? = some a := by
    rw [← dropWhile_getLast?_eq hne, ← hd2, h1]
  rw [List.getLast?_reverse] at h2
  cases hl : l1 with
  | nil => rw [hl] at h2; simp at h2
  | cons b u =>
    rw [hl] at h2
    simp only [List.head?_cons, Option.some.injEq] at h2
    subst h2
    exact dropWhile_head_false (hl1 ▸ hl)

theorem pyStrip_getLast?_not_ws {s : Str} {a : Char}
    (h : (pyStrip s).getLast? = some a) : isPyWS a = false := by
  unfold pyStrip at h
  rw [List.getLast?_reverse] at h
  cases hl : (s.dropWhile isPyWS).reverse.dropWhile isPyWS with
  | nil => rw [hl] at h; simp at h
  | cons b u =>
    rw [hl] at h
    simp only [List.head?_cons, Option.some.injEq] at h
    subst h
    exact dropWhile_head_false hl

theorem pyStrip_eq_self {l : Str} {a b : Char}
    (hh : l.head? = some a) (ha : isPyWS a = false)
    (hg : l.getLast? = some b) (hb : isPyWS b = false) : pyStrip l = l := by
  unfold pyStrip
  rw [dropWhile_eq_self_of_head hh ha]
  rw [dropWhile_eq_self_of_head (by rw [List.head?_reverse]; exact hg) hb]
  exact List.reverse_reverse l

theorem pyStrip_idem (s : Str) : pyStrip (pyStrip s) = pyStrip s := by
  cases h : pyStrip s with
  | nil => rfl
  | cons a rest =>
    have ha := pyStrip_head_not_ws h
    have hg : (pyStrip s).getLast? = some ((a :: rest).getLast (by simp)) := by
      rw [h]; exact List.getLast?_eq_getLast _ (by simp)
    have hb := pyStrip_getLast?_not_ws hg
    rw [← h]
    exact pyStrip_eq_self (by rw [h]; rfl) ha hg hb

theorem mem_pyStrip {s : Str} {c : Char} (h : c ∈ pyStrip s) : c ∈ s := by
  unfold pyStrip at h
  rw [List.mem_reverse] at h
  have h2 := mem_of_mem_dropWhile h
  rw [List.mem_reverse] at h2
  exact mem_of_mem_dropWhile h2

theorem collapseNL_no_nl {s : Str} {c : Char} (h : c ∈ collapseNL s) :
    c ≠ '\n' ∧ c ≠ '\r' := by
  unfold collapseNL at h
  rw [List.mem_map] at h
  obtain ⟨x, _, hx⟩ := h
  by_cases hnl : x = '\n' || x = '\r'
  · rw [if_pos hnl] at hx
    subst hx
    constructor <;> decide
  · rw [if_neg hnl] at hx
    subst hx
    simpa using hnl

theorem collapseNL_eq_self {s : Str} (h : ∀ c ∈ s, c ≠ '\n' ∧ c ≠ '\r') :
    collapseNL s = s := by
  unfold collapseNL
  induction s with
  | nil => rfl
  | cons a rest ih =>
    have ha := h a (by simp)
    simp only [List.map_cons]
    rw [if_neg (by simpa using ha), ih (fun c hc => h c (by simp [hc]))]

theorem pyRfind_lt_length (s : Str) (c : Char) : pyRfind s c < (s.length : Int) := by
  induction s with
  | nil => simp [pyRfind]
  | cons a rest ih =>
    simp only [pyRfind, List.length_cons]
    by_cases h0 : 0 ≤ pyRfind rest c
    · rw [if_pos h0]; push_cast; omega
    · rw [if_neg h0]
      by_cases hac : a = c
      · rw [if_pos hac]; push_cast; omega
      · rw [if_neg hac]; push_cast; omega

theorem pyRfind_ge_neg_one (s : Str) (c : Char) : -1 ≤ pyRfind s c := by
  induction s with
  | nil => simp [pyRfind]
  | cons a rest ih =>
    simp only [pyRfind]
    by_cases h0 : 0 ≤ pyRfind rest c
    · rw [if_pos h0]; omega
    · rw [if_neg h0]
      by_cases hac : a = c
      · rw [if_pos hac]; omega
      · rw [if_neg hac]

theorem pyRfind_get {s : Str} {c : Char} (h : 0 ≤ pyRfind s c) :
    s.get? (pyRfind s c).toNat = some c := by
  induction s with
  | nil => simp [pyRfind] at h
  | cons a rest ih =>
    simp only [pyRfind] at h ⊢
    by_cases h0 : 0 ≤ pyRfind rest c
    · rw [if_pos h0] at h ⊢
      have : (pyRfind rest c + 1).toNat = (pyRfind rest c).toNat + 1 := by omega
      rw [this]
      simpa using ih h0
    · rw [if_neg h0] at h ⊢
      by_cases hac : a = c
      · rw [if_pos hac]
        subst hac
        rfl
      · rw [if_neg hac] at h
        omega

theorem pyRfind_neg {s : Str} {c : Char} (h : pyRfind s c < 0) : c ∉ s := by
  induction s with
  | nil => simp
  | cons a rest ih =>
    simp only [pyRfind] at h
    by_cases h0 : 0 ≤ pyRfind rest c
    · rw [if_pos h0] at h; omega
    · rw [if_neg h0] at h
      by_cases hac : a = c
      · rw [if_pos hac] at h; omega
      · simp only [List.mem_cons, not_or]
        exact ⟨fun he => hac he.symm, ih (by omega)⟩

theorem get?_take_eq {l : Str} {n k : Nat} {x : Char}
    (h : (l.take n).get? k = some x) : l.get? k = some x := by
  have hk : k < (l.take n).length := List.get?_eq_some.mp h |>.1
  rw [List.length_take] at hk
  rw [← List.get?_take (by omega : k < n)]
  exact h

theorem takeWhile_length_ge {p : Char → Bool} {l : Str} {n : Nat}
    (hmem : ∀ c ∈ l.take n, p c = true) (hn : n ≤ l.length) :
    n ≤ (l.takeWhile p).length := by
  induction l generalizing n with
  | nil => simpa using hn
  | cons a rest ih =>
    cases n with
    | zero => omega
    | succ n' =>
      have ha : p a = true := hmem a (by simp)
      rw [List.takeWhile_cons_of_pos ha]
      have := ih (n := n') (fun c hc => hmem c (by simp [hc])) (by simpa using hn)
      simpa using this

theorem takeWhile_length_get {p : Char → Bool} {l : Str}
    (h : (l.takeWhile p).length < l.length) :
    ∃ c, l.get? (l.takeWhile p).length = some c ∧ p c = false := by
  induction l with
  | nil => simp at h
  | cons a rest ih =>
    by_cases ha : p a
    · rw [List.takeWhile_cons_of_pos ha] at h ⊢
      have := ih (by simpa using h)
      simpa using this
    · rw [List.takeWhile_cons_of_neg ha] at h ⊢
      exact ⟨a, rfl, by simpa using ha⟩

end StringLemmas

section TruncateEqns

theorem truncate_some_eq_of_le {t0 : Str} {m : Nat} (h0 : t0 ≠ [])
    (hlen : (pyStrip (collapseNL t0)).length ≤ m) :
    truncate_tooltip (some t0) m = pyStrip (collapseNL t0) := by
  simp [truncate_tooltip, h0, hlen]

theorem truncate_some_eq_cut {t0 : Str} {m : Nat} (h0 : t0 ≠ [])
    (hlen : ¬ (pyStrip (collapseNL t0)).length ≤ m)
    (hc : 0 < pyRfind ((pyStrip (collapseNL t0)).take m) ' ') :
    truncate_tooltip (some t0) m
      = (pyStrip (collapseNL t0)).take (pyRfind ((pyStrip (collapseNL t0)).take m) ' ').toNat ++ ell := by
  simp [truncate_tooltip, h0, hlen, hc]

theorem truncate_some_eq_hard {t0 : Str} {m : Nat} (h0 : t0 ≠ [])
    (hlen : ¬ (pyStrip (collapseNL t0)).length ≤ m)
    (hc : ¬ 0 < pyRfind ((pyStrip (collapseNL t0)).take m) ' ') :
    truncate_tooltip (some t0) m = (pyStrip (collapseNL t0)).take m ++ ell := by
  simp [truncate_tooltip, h0, hlen, hc]

theorem truncate_length_le (tt : Option Str) (m : Nat) :
    (truncate_tooltip tt m).length ≤ m + 3 := by
  match tt with
  | none => simp [truncate_tooltip]
  | some t0 =>
    by_cases h0 : t0 = []
    · simp [truncate_tooltip, h0]
    · by_cases hlen : (pyStrip (collapseNL t0)).length ≤ m
      · rw [truncate_some_eq_of_le h0 hlen]
        omega
      · by_cases hc : 0 < pyRfind ((pyStrip (collapseNL t0)).take m) ' '
        · rw [truncate_some_eq_cut h0 hlen hc]
          have hlt := pyRfind_lt_length ((pyStrip (collapseNL t0)).take m) ' '
          rw [List.length_take] at hlt
          have hcm : (pyRfind ((pyStrip (collapseNL t0)).take m) ' ').toNat < m := by omega
          simp only [List.length_append, List.length_take]
          have : ell.length = 3 := by decide
          omega
        · rw [truncate_some_eq_hard h0 hlen hc]
          simp only [List.length_append, List.length_take]
          have : ell.length = 3 := by decide
          omega

theorem truncate_word_boundary {t0 : Str} {m : Nat}
    (hfw : (firstWord (pyStrip (collapseNL t0))).length ≤ m) :
    truncate_tooltip (some t0) m = pyStrip (collapseNL t0)
    ∨ ∃ k, truncate_tooltip (some t0) m = (pyStrip (collapseNL t0)).take k ++ ell
         ∧ (pyStrip (collapseNL t0)).get? k = some ' ' := by
  by_cases h0 : t0 = []
  · left
    subst h0
    rfl
  by_cases hlen : (pyStrip (collapseNL t0)).length ≤ m
  · left
    exact truncate_some_eq_of_le h0 hlen
  by_cases hc : 0 < pyRfind ((pyStrip (collapseNL t0)).take m) ' '
  · right
    refine ⟨(pyRfind ((pyStrip (collapseNL t0)).take m) ' ').toNat,
      truncate_some_eq_cut h0 hlen hc, ?_⟩
    exact get?_take_eq (pyRfind_get (by omega))
  · right
    refine ⟨m, truncate_some_eq_hard h0 hlen hc, ?_⟩
    -- the cutoff cannot be 0: the stripped string does not start with a space
    have hcz : pyRfind ((pyStrip (collapseNL t0)).take m) ' ' ≠ 0 := by
      intro hz
      have hg := pyRfind_get (s := (pyStrip (collapseNL t0)).take m) (c := ' ') (by omega)
      rw [hz] at hg
      have hg2 := get?_take_eq hg
      cases hs : pyStrip (collapseNL t0) with
      | nil => rw [hs] at hlen; simp at hlen
      | cons a u =>
        rw [hs] at hg2
        simp only [List.get?] at hg2
        cases hg2
        have := pyStrip_head_not_ws hs
        simp [isPyWS] at this
    have hneg : pyRfind ((pyStrip (collapseNL t0)).take m) ' ' < 0 := by
      have := pyRfind_ge_neg_one ((pyStrip (collapseNL t0)).take m) ' '
      omega
    have hnosp : ' ' ∉ (pyStrip (collapseNL t0)).take m := pyRfind_neg hneg
    -- hence the first word covers the whole budget, and with hfw its length is m
    have hge : m ≤ ((pyStrip (collapseNL t0)).takeWhile (fun c => c != ' ')).length := by
      refine takeWhile_length_ge (fun c hcmem => ?_) (by omega)
      simp only [bne_iff_ne, ne_eq, decide_eq_true_eq]
      intro he
      exact hnosp (he ▸ hcmem)
    have heq : ((pyStrip (collapseNL t0)).takeWhile (fun c => c != ' ')).length = m := by
      have := hfw
      unfold firstWord at this
      omega
    have hlt : ((pyStrip (collapseNL t0)).takeWhile (fun c => c != ' ')).length
        < (pyStrip (collapseNL t0)).length := by omega
    obtain ⟨c, hget, hpc⟩ := takeWhile_length_get hlt
    rw [heq] at hget
    have : c = ' ' := by simpa using hpc
    rw [← this]
    exact hget

end TruncateEqns

/-- C1: for every tooltip string and every maxLen, the truncation result
(collapse newlines and carriage returns to spaces, trim, then cut) has
length at most maxLen + 3; whenever the first word of the collapsed,
trimmed string is not longer than maxLen the result is either the whole
collapsed string or a cut at a space of the collapsed string followed by
the ellipsis marker (so no word is split); and truncating
"The quick brown fox jumps" with maxLen = 10 yields "The quick...". -/
theorem truncate_bound_and_word_boundary :
    ∀ (t : Str) (m : Nat),
      (truncate_tooltip (some t) m).length ≤ m + 3
      ∧ ((firstWord (pyStrip (collapseNL t))).length ≤ m →
          truncate_tooltip (some t) m = pyStrip (collapseNL t)
          ∨ ∃ k, truncate_tooltip (some t) m = (pyStrip (collapseNL t)).take k ++ ell
               ∧ (pyStrip (collapseNL t)).get? k = some ' ')
      ∧ truncate_tooltip (some (str "The quick brown fox jumps")) 10 = str "The quick..." := by
  intro t m
  exact ⟨truncate_length_le (some t) m, fun hfw => truncate_word_boundary hfw, by decide⟩

/-- Witness for C1 at the spec's own example. -/
theorem truncate_bound_and_word_boundary_witness :
    (truncate_tooltip (some (str "The quick brown fox jumps")) 10).length ≤ 13
    ∧ (truncate_tooltip (some (str "The quick brown fox jumps")) 10
        = pyStrip (collapseNL (str "The quick brown fox jumps"))
       ∨ ∃ k, truncate_tooltip (some (str "The quick brown fox jumps")) 10
            = (pyStrip (collapseNL (str "The quick brown fox jumps"))).take k ++ ell
          ∧ (pyStrip (collapseNL (str "The quick brown fox jumps"))).get? k = some ' ') :=
  ⟨(truncate_bound_and_word_boundary (str "The quick brown fox jumps") 10).1,
   (truncate_bound_and_word_boundary (str "The quick brown fox jumps") 10).2.1 (by decide)⟩

section Idempotence

theorem strip_collapse_fix (t0 : Str) :
    pyStrip (collapseNL (pyStrip (collapseNL t0))) = pyStrip (collapseNL t0) := by
  have h1 : collapseNL (pyStrip (collapseNL t0)) = pyStrip (collapseNL t0) :=
    collapseNL_eq_self (fun c hc => collapseNL_no_nl (mem_pyStrip hc))
  rw [h1, pyStrip_idem]

theorem strip_collapse_fix_cut (t0 : Str) (k : Nat) :
    pyStrip (collapseNL ((pyStrip (collapseNL t0)).take k ++ ell))
      = (pyStrip (collapseNL t0)).take k ++ ell := by
  have hmem : ∀ c ∈ (pyStrip (collapseNL t0)).take k ++ ell, c ≠ '\n' ∧ c ≠ '\r' := by
    intro c hc
    rcases List.mem_append.mp hc with h | h
    · exact collapseNL_no_nl (mem_pyStrip (List.mem_of_mem_take h))
    · fin_cases h <;> exact ⟨by decide, by decide⟩
  rw [collapseNL_eq_self hmem]
  cases hs : (pyStrip (collapseNL t0)).take k with
  | nil => decide
  | cons a u =>
    have ha : isPyWS a = false := by
      have hh : pyStrip (collapseNL t0) = a :: (u ++ (pyStrip (collapseNL t0)).drop k) := by
        have := List.take_append_drop k (pyStrip (collapseNL t0))
        rw [hs] at this
        simpa using this.symm
      exact pyStrip_head_not_ws hh
    refine pyStrip_eq_self (a := a) (b := '.') rfl ha ?_ (by decide)
    rw [List.getLast?_append]
    rfl

/-- Conditional idempotence of truncation: a second application is the
identity whenever the first result's length is at most maxLen or exactly
maxLen + 3 (the hard-cut case). -/
theorem truncate_stable {tt : Option Str} {m : Nat}
    (h : (truncate_tooltip tt m).length ≤ m ∨ (truncate_tooltip tt m).length = m + 3) :
    truncate_tooltip (some (truncate_tooltip tt m)) m = truncate_tooltip tt m := by
  match tt with
  | none => rfl
  | some t0 =>
    by_cases h0 : t0 = []
    · subst h0; rfl
    by_cases hlen : (pyStrip (collapseNL t0)).length ≤ m
    · rw [truncate_some_eq_of_le h0 hlen]
      by_cases hz : pyStrip (collapseNL t0) = []
      · rw [hz]; rfl
      · rw [truncate_some_eq_of_le hz (by rw [strip_collapse_fix]; exact hlen)]
        exact strip_collapse_fix t0
    by_cases hc : 0 < pyRfind ((pyStrip (collapseNL t0)).take m) ' '
    · -- word-boundary cut: the hypothesis forces the result within budget
      set s := pyStrip (collapseNL t0) with hsdef
      set co := (pyRfind (s.take m) ' ').toNat with hco
      have hr : truncate_tooltip (some t0) m = s.take co ++ ell :=
        truncate_some_eq_cut h0 hlen hc
      have hcolt : co < m := by
        have hlt := pyRfind_lt_length (s.take m) ' '
        rw [List.length_take] at hlt
        omega
      have hlenr : (s.take co ++ ell).length ≤ m := by
        rcases h with h | h
        · rw [hr] at h; exact h
        · exfalso
          rw [hr] at h
          simp only [List.length_append, List.length_take] at h
          have : ell.length = 3 := by decide
          omega
      rw [hr]
      have hne : s.take co ++ ell ≠ [] := by simp [ell, str]
      rw [truncate_some_eq_of_le hne (by rw [strip_collapse_fix_cut]; exact hlenr)]
      exact strip_collapse_fix_cut t0 co
    · -- hard cut: the result is the budget prefix plus the marker
      set s := pyStrip (collapseNL t0) with hsdef
      have hr : truncate_tooltip (some t0) m = s.take m ++ ell :=
        truncate_some_eq_hard h0 hlen hc
      have htm : (s.take m).length = m := by
        rw [List.length_take]; omega
      rw [hr]
      have hne : s.take m ++ ell ≠ [] := by simp [ell, str]
      have hlen2 : ¬ (pyStrip (collapseNL (s.take m ++ ell))).length ≤ m := by
        rw [strip_collapse_fix_cut]
        simp only [List.length_append, htm]
        have : ell.length = 3 := by decide
        omega
      have htake : (pyStrip (collapseNL (s.take m ++ ell))).take m = s.take m := by
        rw [strip_collapse_fix_cut]
        rw [List.take_left' htm]
      have hc2 : ¬ 0 < pyRfind ((pyStrip (collapseNL (s.take m ++ ell))).take m) ' ' := by
        rw [htake]
        exact hc
      rw [truncate_some_eq_hard hne hlen2 hc2, htake]

mutual
/-- Every node's truncated tooltip has length at most m or exactly m + 3
(the region where a second truncation is the identity). -/
def tooltipStable : InsightNode → Nat → Bool
  | .mk _ tt _ c, m =>
    (decide ((truncate_tooltip (getTooltip tt) m).length ≤ m)
      || decide ((truncate_tooltip (getTooltip tt) m).length = m + 3))
    && tooltipStableChildren c m
/-- tooltipStable below a children field. -/
def tooltipStableChildren : Children → Nat → Bool
  | .missing, _ => true
  | .null, _ => true
  | .clist ks, m => tooltipStableList ks m
/-- tooltipStable of a children list. -/
def tooltipStableList : ChildList → Nat → Bool
  | .nil, _ => true
  | .cons k ks, m => tooltipStable k m && tooltipStableList ks m
end

mutual
theorem process_idem : ∀ (t : InsightNode) (m : Nat), tooltipStable t m = true →
    process_tree_tooltips (process_tree_tooltips t m) m = process_tree_tooltips t m
  | .mk n tt ty c, m, h => by
    simp only [tooltipStable, Bool.and_eq_true, Bool.or_eq_true, decide_eq_true_eq,
      getTooltip] at h
    obtain ⟨hcond, hkids⟩ := h
    simp only [process_tree_tooltips, getTooltip]
    rw [truncate_stable hcond, processChildren_idem c m hkids]
theorem processChildren_idem : ∀ (c : Children) (m : Nat), tooltipStableChildren c m = true →
    processChildren (processChildren c m) m = processChildren c m
  | .missing, _, _ => rfl
  | .null, _, _ => rfl
  | .clist ks, m, h => by
    simp only [processChildren]
    rw [processList_idem ks m h]
theorem processList_idem : ∀ (ks : ChildList) (m : Nat), tooltipStableList ks m = true →
    processList (processList ks m) m = processList ks m
  | .nil, _, _ => rfl
  | .cons k ks, m, h => by
    simp only [tooltipStableList, Bool.and_eq_true] at h
    simp only [processList]
    rw [process_idem k m h.1, processList_idem ks m h.2]
end

end Idempotence

/-- C2 counterexample: truncation is not idempotent.  For the tooltip
"aaaaaaaa bcdefgh" and maxLen = 10 one application yields
"aaaaaaaa..." (length 11), and a second application cuts again to
"aaaaaaaa.....". -/
theorem truncate_not_idempotent_cex :
    truncate_tooltip (some (truncate_tooltip (some (str "aaaaaaaa bcdefgh")) 10)) 10
      ≠ truncate_tooltip (some (str "aaaaaaaa bcdefgh")) 10 := by decide

/-- C2 amended: truncation applied twice equals truncation applied once
whenever the single application's result has length at most maxLen or
exactly maxLen + 3 (equivalently, except when a word-boundary cut lands
in the last two characters of the budget), and tree normalization
applied twice equals applying it once on every tree all of whose
truncated tooltips satisfy that condition. -/
theorem truncate_and_normalize_conditionally_idempotent :
    (∀ (tt : Option Str) (m : Nat),
        (truncate_tooltip tt m).length ≤ m ∨ (truncate_tooltip tt m).length = m + 3 →
        truncate_tooltip (some (truncate_tooltip tt m)) m = truncate_tooltip tt m)
    ∧ (∀ (t : InsightNode) (m : Nat), tooltipStable t m = true →
        process_tree_tooltips (process_tree_tooltips t m) m = process_tree_tooltips t m) :=
  ⟨fun _ _ h => truncate_stable h, fun t m h => process_idem t m h⟩

/-- Witness for the amended C2 at a concrete tooltip and a concrete
two-node tree. -/
theorem truncate_and_normalize_conditionally_idempotent_witness :
    truncate_tooltip (some (truncate_tooltip (some (str "ab cdefghijklmnop")) 10)) 10
      = truncate_tooltip (some (str "ab cdefghijklmnop")) 10
    ∧ process_tree_tooltips
        (process_tree_tooltips
          (.mk (some (str "A")) (some (some (str "a short tip")))
            none (.clist (.cons (.mk (some (str "B")) none none .missing) .nil))) 10) 10
      = process_tree_tooltips
          (.mk (some (str "A")) (some (some (str "a short tip")))
            none (.clist (.cons (.mk (some (str "B")) none none .missing) .nil))) 10 :=
  ⟨truncate_and_normalize_conditionally_idempotent.1 (some (str "ab cdefghijklmnop")) 10
      (by decide),
   truncate_and_normalize_conditionally_idempotent.2 _ 10 (by decide)⟩

mutual
theorem process_nodeCount : ∀ (t : InsightNode) (m : Nat),
    nodeCount (process_tree_tooltips t m) = nodeCount t
  | .mk n tt ty c, m => by
    simp only [process_tree_tooltips, nodeCount]
    rw [processChildren_count c m]
theorem processChildren_count : ∀ (c : Children) (m : Nat),
    countChildren (processChildren c m) = countChildren c
  | .missing, _ => rfl
  | .null, _ => rfl
  | .clist ks, m => by
    simp only [processChildren, countChildren]
    rw [processList_count ks m]
theorem processList_count : ∀ (ks : ChildList) (m : Nat),
    countList (processList ks m) = countList ks
  | .nil, _ => rfl
  | .cons k ks, m => by
    simp only [processList, countList]
    rw [process_nodeCount k m, processList_count ks m]
end

/-- C7: tree normalization is total.  A node whose tooltip field is
absent or None is normalized to the empty-string tooltip; an absent or
None children field is preserved with no recursion; and on every input
the result node's tooltip is exactly the truncation of the effective
input tooltip, with the reachable node count preserved. -/
theorem process_tree_tooltips_total :
    ∀ (n ty : Option Str) (m : Nat) (t : InsightNode),
      truncate_tooltip none m = []
      ∧ process_tree_tooltips (.mk n none ty .missing) m = .mk n (some (some [])) ty .missing
      ∧ process_tree_tooltips (.mk n (some none) ty .null) m = .mk n (some (some [])) ty .null
      ∧ tooltipF (process_tree_tooltips t m)
          = some (some (truncate_tooltip (getTooltip (tooltipF t)) m))
      ∧ nodeCount (process_tree_tooltips t m) = nodeCount t := by
  intro n ty m t
  refine ⟨rfl, rfl, rfl, ?_, process_nodeCount t m⟩
  cases t
  rfl

section FlattenLemmas

mutual
theorem flatten_nodes_pairs : ∀ (t : InsightNode) (pn pt : Option Str),
    ((flatten_tree_to_nodes_links t pn pt).1).map (fun g => (g.id, g.parent)) = specPairs t pn
  | .mk n tt ty c, pn, pt => by
    simp only [flatten_tree_to_nodes_links, specPairs, List.map_cons]
    rw [flattenChildren_nodes_pairs c n (getTooltip tt)]
theorem flattenChildren_nodes_pairs : ∀ (c : Children) (pn pt : Option Str),
    ((flattenChildren c pn pt).1).map (fun g => (g.id, g.parent)) = specPairsChildren c pn
  | .missing, _, _ => rfl
  | .null, _, _ => rfl
  | .clist ks, pn, pt => flattenList_nodes_pairs ks pn pt
theorem flattenList_nodes_pairs : ∀ (ks : ChildList) (pn pt : Option Str),
    ((flattenList ks pn pt).1).map (fun g => (g.id, g.parent)) = specPairsList ks pn
  | .nil, _, _ => rfl
  | .cons k ks, pn, pt => by
    simp only [flattenList, specPairsList, List.map_append]
    rw [flatten_nodes_pairs k pn pt, flattenList_nodes_pairs ks pn pt]
end

mutual
theorem specPairs_length : ∀ (t : InsightNode) (pn : Option Str),
    (specPairs t pn).length = nodeCount t
  | .mk n tt ty c, pn => by
    simp only [specPairs, nodeCount, List.length_cons]
    rw [specPairsChildren_length c n]
    omega
theorem specPairsChildren_length : ∀ (c : Children) (pn : Option Str),
    (specPairsChildren c pn).length = countChildren c
  | .missing, _ => rfl
  | .null, _ => rfl
  | .clist ks, pn => specPairsList_length ks pn
theorem specPairsList_length : ∀ (ks : ChildList) (pn : Option Str),
    (specPairsList ks pn).length = countList ks
  | .nil, _ => rfl
  | .cons k ks, pn => by
    simp only [specPairsList, countList, List.length_append]
    rw [specPairs_length k pn, specPairsList_length ks pn]
end

mutual
theorem flatten_links_map : ∀ (t : InsightNode) (pn pt : Option Str), namesOK t = true →
    ((flatten_tree_to_nodes_links t pn pt).2).map (fun l => (l.source, l.target))
      = (if pyTruthy pn then [(pn, nameF t)] else []) ++ specEdges t
  | .mk n tt ty c, pn, pt, h => by
    simp only [namesOK, Bool.and_eq_true] at h
    have hn : pyTruthy n = true := by
      cases n with
      | none => simp at h
      | some s =>
        have := h.1
        simpa [pyTruthy] using this
    simp only [flatten_tree_to_nodes_links, specEdges, List.map_append, nameF]
    rw [flattenChildren_links_map c n (getTooltip tt) h.2 hn]
    by_cases hp : pyTruthy pn = true
    · simp [hp]
    · simp [Bool.eq_false_iff.mpr hp]
theorem flattenChildren_links_map : ∀ (c : Children) (pn pt : Option Str),
    namesOKChildren c = true → pyTruthy pn = true →
    ((flattenChildren c pn pt).2).map (fun l => (l.source, l.target)) = specEdgesChildren c pn
  | .missing, _, _, _, _ => rfl
  | .null, _, _, _, _ => rfl
  | .clist ks, pn, pt, h, hp => flattenList_links_map ks pn pt h hp
theorem flattenList_links_map : ∀ (ks : ChildList) (pn pt : Option Str),
    namesOKList ks = true → pyTruthy pn = true →
    ((flattenList ks pn pt).2).map (fun l => (l.source, l.target)) = specEdgesList ks pn
  | .nil, _, _, _, _ => rfl
  | .cons k ks, pn, pt, h, hp => by
    simp only [namesOKList, Bool.and_eq_true] at h
    simp only [flattenList, specEdgesList, List.map_append]
    rw [flatten_links_map k pn pt h.1, flattenList_links_map ks pn pt h.2 hp]
    simp [hp]
end

theorem nodeCount_pos (t : InsightNode) : 1 ≤ nodeCount t := by
  cases t
  simp only [nodeCount]
  omega

mutual
theorem specEdges_length : ∀ (t : InsightNode), namesOK t = true →
    (specEdges t).length = nodeCount t - 1
  | .mk n tt ty c, h => by
    simp only [namesOK, Bool.and_eq_true] at h
    simp only [specEdges, nodeCount]
    rw [specEdgesChildren_length c n h.2]
    omega
theorem specEdgesChildren_length : ∀ (c : Children) (pn : Option Str),
    namesOKChildren c = true → (specEdgesChildren c pn).length = countChildren c
  | .missing, _, _ => rfl
  | .null, _, _ => rfl
  | .clist ks, pn, h => specEdgesList_length ks pn h
theorem specEdgesList_length : ∀ (ks : ChildList) (pn : Option Str),
    namesOKList ks = true → (specEdgesList ks pn).length = countList ks
  | .nil, _, _ => rfl
  | .cons k ks, pn, h => by
    simp only [namesOKList, Bool.and_eq_true] at h
    simp only [specEdgesList, countList, List.length_cons, List.length_append]
    rw [specEdges_length k h.1, specEdgesList_length ks pn h.2]
    have := nodeCount_pos k
    omega
end

mutual
theorem flatten_links_count : ∀ (t : InsightNode) (pn pt : Option Str),
    ((flatten_tree_to_nodes_links t pn pt).2).length
      = (specPairs t pn).countP (fun p => pyTruthy p.2)
  | .mk n tt ty c, pn, pt => by
    simp only [flatten_tree_to_nodes_links, specPairs, List.length_append,
      List.countP_cons]
    rw [flattenChildren_links_count c n (getTooltip tt)]
    by_cases hp : pyTruthy pn = true
    · simp [hp]
      omega
    · simp [Bool.eq_false_iff.mpr hp]
theorem flattenChildren_links_count : ∀ (c : Children) (pn pt : Option Str),
    ((flattenChildren c pn pt).2).length
      = (specPairsChildren c pn).countP (fun p => pyTruthy p.2)
  | .missing, _, _ => rfl
  | .null, _, _ => rfl
  | .clist ks, pn, pt => flattenList_links_count ks pn pt
theorem flattenList_links_count : ∀ (ks : ChildList) (pn pt : Option Str),
    ((flattenList ks pn pt).2).length
      = (specPairsList ks pn).countP (fun p => pyTruthy p.2)
  | .nil, _, _ => rfl
  | .cons k ks, pn, pt => by
    simp only [flattenList, specPairsList, List.length_append, List.countP_append]
    rw [flatten_links_count k pn pt, flattenList_links_count ks pn pt]
end

end FlattenLemmas

/-- C3: on a tree whose reachable node names are all present, non-empty
and unique, flattening emits exactly one graph node per reachable tree
node and exactly nodeCount - 1 edges; the (id, parent) projections of
the emitted nodes are exactly the pre-order (name, parent name) pairs of
the source tree (so the root has parent None and every other node's
parent is the name of its actual parent), the first emitted node is the
root with parent None, and the (source, target) projections of the
emitted links are exactly the pre-order edges of the source tree. -/
theorem flatten_tree_spec (t : InsightNode)
    (hnames : namesOK t = true)
    (hnodup : ((specPairs t none).map Prod.fst).Nodup) :
    ((flatten_tree_to_nodes_links t none none).1).length = nodeCount t
    ∧ ((flatten_tree_to_nodes_links t none none).2).length = nodeCount t - 1
    ∧ ((flatten_tree_to_nodes_links t none none).1).map (fun g => (g.id, g.parent))
        = specPairs t none
    ∧ ((flatten_tree_to_nodes_links t none none).1).head?.map (fun g => g.parent)
        = some none
    ∧ ((flatten_tree_to_nodes_links t none none).2).map (fun l => (l.source, l.target))
        = specEdges t := by
  have hpairs := flatten_nodes_pairs t none none
  have hlinks := flatten_links_map t none none hnames
  rw [show pyTruthy none = false from rfl] at hlinks
  simp only [Bool.false_eq_true, if_false, List.nil_append] at hlinks
  refine ⟨?_, ?_, hpairs, ?_, hlinks⟩
  · have := congrArg List.length hpairs
    rw [List.length_map, specPairs_length] at this
    exact this
  · have := congrArg List.length hlinks
    rw [List.length_map, specEdges_length t hnames] at this
    exact this
  · cases t
    rfl

/-- Witness for C3 at a concrete three-node tree. -/
theorem flatten_tree_spec_witness :
    ((flatten_tree_to_nodes_links
        (.mk (some (str "R")) none none
          (.clist (.cons (.mk (some (str "A")) none none .missing)
            (.cons (.mk (some (str "B")) none none .null) .nil)))) none none).1).length = 3
    ∧ ((flatten_tree_to_nodes_links
        (.mk (some (str "R")) none none
          (.clist (.cons (.mk (some (str "A")) none none .missing)
            (.cons (.mk (some (str "B")) none none .null) .nil)))) none none).2).length = 2 :=
  ⟨(flatten_tree_spec _ (by decide) (by decide)).1,
   ((flatten_tree_spec
      (.mk (some (str "R")) none none
        (.clist (.cons (.mk (some (str "A")) none none .missing)
          (.cons (.mk (some (str "B")) none none .null) .nil))))
      (by decide) (by decide)).2.1)⟩

/-- C8 counterexample: a tree containing a non-root node with the empty
string as its name, where that node is a leaf: every emitted edge is
still present, so the edge count equals nodeCount - 1 and is not
strictly less. -/
theorem flatten_empty_name_leaf_cex :
    (∃ p ∈ specPairs
        (.mk (some (str "R")) none none
          (.clist (.cons (.mk (some ([] : Str)) none none .missing) .nil))) none,
        p.1 = some ([] : Str) ∧ p.2 = some (str "R"))
    ∧ ¬ (((flatten_tree_to_nodes_links
          (.mk (some (str "R")) none none
            (.clist (.cons (.mk (some ([] : Str)) none none .missing) .nil))) none none).2).length
        < nodeCount (.mk (some (str "R")) none none
            (.clist (.cons (.mk (some ([] : Str)) none none .missing) .nil))) - 1) := by
  decide

/-- C8 amended: flattening emits an edge for a visited node exactly when
the parent name passed down is a non-empty string (the link count equals
the number of pre-order pairs with truthy parent name, for every parent
argument); and for every tree containing a node whose name is the empty
string and which has at least one child, the children of that node
record the empty string as their parent, no edge is emitted for them,
and the emitted edge count is strictly less than nodeCount - 1. -/
theorem flatten_empty_parent_name (t : InsightNode)
    (h : ∃ p ∈ specPairs t none, p.2 = some ([] : Str)) :
    (∀ (u : InsightNode) (pn pt : Option Str),
        ((flatten_tree_to_nodes_links u pn pt).2).length
          = (specPairs u pn).countP (fun p => pyTruthy p.2))
    ∧ (∃ g ∈ (flatten_tree_to_nodes_links t none none).1, g.parent = some ([] : Str))
    ∧ ((flatten_tree_to_nodes_links t none none).2).length < nodeCount t - 1 := by
  obtain ⟨p, hpmem, hp2⟩ := h
  refine ⟨fun u pn pt => flatten_links_count u pn pt, ?_, ?_⟩
  · have hpairs := flatten_nodes_pairs t none none
    rw [← hpairs] at hpmem
    obtain ⟨g, hg, hproj⟩ := List.mem_map.mp hpmem
    refine ⟨g, hg, ?_⟩
    have : g.parent = p.2 := by
      rw [← hproj]
    rw [this, hp2]
  · rw [flatten_links_count t none none]
    cases t with
    | mk n tt ty c =>
      simp only [specPairs] at hpmem ⊢
      have hcount : List.countP (fun q : Option Str × Option Str => pyTruthy q.2)
          ((n, none) :: specPairsChildren c n)
          = List.countP (fun q : Option Str × Option Str => pyTruthy q.2)
              (specPairsChildren c n) := by
        simp [List.countP_cons, pyTruthy]
      rw [hcount]
      have hpin : p ∈ specPairsChildren c n := by
        rcases List.mem_cons.mp hpmem with he | hi
        · exfalso
          rw [he] at hp2
          simp at hp2
        · exact hi
      have hplen : 1 ≤ (specPairsChildren c n).length := by
        cases hc : specPairsChildren c n with
        | nil => rw [hc] at hpin; simp at hpin
        | cons a u => simp
      have hne : (specPairsChildren c n).countP (fun q => pyTruthy q.2)
          ≠ (specPairsChildren c n).length := by
        intro he
        have hall := List.countP_eq_length.mp he
        have := hall p hpin
        rw [hp2] at this
        simp [pyTruthy] at this
      have hle := List.countP_le_length (l := specPairsChildren c n)
        (p := fun q => pyTruthy q.2)
      simp only [nodeCount]
      rw [specPairsChildren_length c n] at hne hle hplen
      omega

/-- Witness for the amended C8: a three-node chain whose middle node is
named by the empty string loses the edge to its child. -/
theorem flatten_empty_parent_name_witness :
    ((flatten_tree_to_nodes_links
        (.mk (some (str "R")) none none
          (.clist (.cons
            (.mk (some ([] : Str)) none none
              (.clist (.cons (.mk (some (str "L")) none none .missing) .nil)))
            .nil))) none none).2).length
      < nodeCount (.mk (some (str "R")) none none
          (.clist (.cons
            (.mk (some ([] : Str)) none none
              (.clist (.cons (.mk (some (str "L")) none none .missing) .nil)))
            .nil))) - 1 :=
  (flatten_empty_parent_name _ (by decide)).2.2

section TextRenderer

/-- Joins a list of lines into a single string, terminating every line
with a newline character. -/
def joinLines : List Str → Str
  | [] => []
  | l :: ls => l ++ '\n' :: joinLines ls

mutual
/-- Specification-side description, following the spec's words, of the
plain-text outline: one dash-marked name line per node indented by two
spaces per level (a missing name rendered as "N/A"), followed by one
parenthesized tooltip line for a node with a truthy tooltip, then the
lines of the children at the next level, in pre-order. -/
def specOutline : InsightNode → Nat → List Str
  | .mk n tt _ c, level =>
    (List.replicate (2 * level) ' ' ++ str "- " ++ n.getD (str "N/A"))
    :: ((if pyTruthy (getTooltip tt)
         then [List.replicate (2 * level) ' ' ++ str "  (" ++ (getTooltip tt).getD [] ++ [')']]
         else [])
        ++ specOutlineChildren c (level + 1))
/-- Outline lines below a children field. -/
def specOutlineChildren : Children → Nat → List Str
  | .missing, _ => []
  | .null, _ => []
  | .clist ks, level => specOutlineList ks level
/-- Outline lines of a children list. -/
def specOutlineList : ChildList → Nat → List Str
  | .nil, _ => []
  | .cons k ks, level => specOutline k level ++ specOutlineList ks level
end

mutual
/-- The number of reachable nodes with a truthy tooltip. -/
def tooltipLineCount : InsightNode → Nat
  | .mk _ tt _ c => (if pyTruthy (getTooltip tt) then 1 else 0) + ttlcChildren c
/-- tooltipLineCount below a children field. -/
def ttlcChildren : Children → Nat
  | .missing => 0
  | .null => 0
  | .clist ks => ttlcList ks
/-- tooltipLineCount of a children list. -/
def ttlcList : ChildList → Nat
  | .nil => 0
  | .cons k ks => tooltipLineCount k + ttlcList ks
end

theorem joinLines_append (a b : List Str) :
    joinLines (a ++ b) = joinLines a ++ joinLines b := by
  induction a with
  | nil => rfl
  | cons l ls ih => simp [joinLines, ih]

mutual
theorem text_eq_join : ∀ (t : InsightNode) (level : Nat),
    tree_to_text t level = joinLines (specOutline t level)
  | .mk n tt ty c, level => by
    simp only [tree_to_text, specOutline, joinLines, joinLines_append]
    rw [textChildren_eq_join c (level + 1)]
    by_cases hp : pyTruthy (getTooltip tt) = true
    · simp [hp, joinLines]
    · simp [Bool.eq_false_iff.mpr hp, joinLines]
theorem textChildren_eq_join : ∀ (c : Children) (level : Nat),
    textChildren c level = joinLines (specOutlineChildren c level)
  | .missing, _ => rfl
  | .null, _ => rfl
  | .clist ks, level => textList_eq_join ks level
theorem textList_eq_join : ∀ (ks : ChildList) (level : Nat),
    textList ks level = joinLines (specOutlineList ks level)
  | .nil, _ => rfl
  | .cons k ks, level => by
    simp only [textList, specOutlineList, joinLines_append]
    rw [text_eq_join k level, textList_eq_join ks level]
end

mutual
theorem specOutline_ne_nil : ∀ (t : InsightNode) (level : Nat),
    ∀ l ∈ specOutline t level, l ≠ []
  | .mk n tt ty c, level => by
    intro l hl
    simp only [specOutline, List.mem_cons, List.mem_append] at hl
    rcases hl with he | hl
    · subst he
      simp [str]
    · rcases hl with ht | hc
      · by_cases hp : pyTruthy (getTooltip tt) = true
        · rw [if_pos hp] at ht
          simp only [List.mem_singleton] at ht
          subst ht
          simp [str]
        · rw [if_neg hp] at ht
          simp at ht
      · exact specOutlineChildren_ne_nil c (level + 1) l hc
theorem specOutlineChildren_ne_nil : ∀ (c : Children) (level : Nat),
    ∀ l ∈ specOutlineChildren c level, l ≠ []
  | .missing, _ => by intro l hl; simp [specOutlineChildren] at hl
  | .null, _ => by intro l hl; simp [specOutlineChildren] at hl
  | .clist ks, level => specOutlineList_ne_nil ks level
theorem specOutlineList_ne_nil : ∀ (ks : ChildList) (level : Nat),
    ∀ l ∈ specOutlineList ks level, l ≠ []
  | .nil, _ => by intro l hl; simp [specOutlineList] at hl
  | .cons k ks, level => by
    intro l hl
    simp only [specOutlineList, List.mem_append] at hl
    rcases hl with h | h
    · exact specOutline_ne_nil k level l h
    · exact specOutlineList_ne_nil ks level l h
end

mutual
theorem specOutline_length : ∀ (t : InsightNode) (level : Nat),
    (specOutline t level).length = nodeCount t + tooltipLineCount t
  | .mk n tt ty c, level => by
    simp only [specOutline, nodeCount, tooltipLineCount, List.length_cons,
      List.length_append]
    rw [specOutlineChildren_length c (level + 1)]
    by_cases hp : pyTruthy (getTooltip tt) = true
    · simp [hp]
      omega
    · simp [Bool.eq_false_iff.mpr hp]
      omega
theorem specOutlineChildren_length : ∀ (c : Children) (level : Nat),
    (specOutlineChildren c level).length = countChildren c + ttlcChildren c
  | .missing, _ => rfl
  | .null, _ => rfl
  | .clist ks, level => specOutlineList_length ks level
theorem specOutlineList_length : ∀ (ks : ChildList) (level : Nat),
    (specOutlineList ks level).length = countList ks + ttlcList ks
  | .nil, _ => rfl
  | .cons k ks, level => by
    simp only [specOutlineList, countList, ttlcList, List.length_append]
    rw [specOutline_length k level, specOutlineList_length ks level]
    omega
end

end TextRenderer

/-- C10: the plain-text renderer is total and shape-deterministic: on
every finite tree (missing names rendered as "N/A", absent/None
tooltips and children handled) its output is the newline-join of the
pre-order outline lines — one name line per node indented by two spaces
per level plus one parenthesized tooltip line per node with a truthy
tooltip — every outline line is non-empty, and the number of lines is
nodeCount plus the number of truthy tooltips. -/
theorem tree_to_text_spec :
    ∀ (t : InsightNode) (level : Nat),
      tree_to_text t level = joinLines (specOutline t level)
      ∧ (∀ l ∈ specOutline t level, l ≠ [])
      ∧ (specOutline t level).length = nodeCount t + tooltipLineCount t :=
  fun t level =>
    ⟨text_eq_join t level, specOutline_ne_nil t level, specOutline_length t level⟩

/-- Witness for C10 at a concrete two-node tree with a missing name. -/
theorem tree_to_text_spec_witness :
    tree_to_text (.mk none (some (some (str "tip"))) none
        (.clist (.cons (.mk (some (str "B")) none none .missing) .nil))) 0
      = joinLines (specOutline (.mk none (some (some (str "tip"))) none
          (.clist (.cons (.mk (some (str "B")) none none .missing) .nil))) 0)
    ∧ str "- N/A" ≠ [] :=
  ⟨(tree_to_text_spec (.mk none (some (some (str "tip"))) none
      (.clist (.cons (.mk (some (str "B")) none none .missing) .nil))) 0).1,
   (tree_to_text_spec (.mk none (some (some (str "tip"))) none
      (.clist (.cons (.mk (some (str "B")) none none .missing) .nil))) 0).2.1
     (str "- N/A") (by decide)⟩

section ClickHandler

/-- The dive context built by the embedded click handler
(src/app.py lines 148-164): labels and tooltips of the clicked node, its
parent, and the root.  Fields that come from node records may be null. -/
structure DiveContext where
  clicked_label : Option Str
  clicked_tooltip : Option Str
  parent_label : Option Str
  parent_tooltip : Option Str
  root_label : Str
  root_tooltip : Str
deriving DecidableEq, Repr

/-- Model of the click handler of create_multilevel_mindmap_html: a
click on the node whose id equals rootID returns early (no context, no
navigation, modelled as `none`); otherwise a context is built from the
clicked record, with the parent fields blanked when the parent is the
root, the root label set to rootID, and the root tooltip looked up among
the nodes (empty when absent or falsy). -/
def clickHandler (allNodes : List GNode) (rootID : Str) (d : GNode) : Option DiveContext :=
  if d.id = some rootID then none
  else
    let root_tooltip :=
      match allNodes.find? (fun nr => nr.id == some rootID) with
      | some nr => nr.tooltip.getD []
      | none => []
    some (if d.parent = some rootID then
            ⟨d.id, d.tooltip, some [], some [], rootID, root_tooltip⟩
          else
            ⟨d.id, d.tooltip, d.parent, d.parent_tooltip, rootID, root_tooltip⟩)

end ClickHandler

/-- C5: for a flattened graph built from a tree whose root is named rn
and whose reachable names are unique, a click on any node whose id
equals the root id builds no dive context and triggers no navigation
(the handler short-circuits to `none`), and a click on any emitted node
whose parent is the root yields a context whose root label equals the
root's name. -/
theorem click_handler_spec (t : InsightNode) (rn : Str) (d : GNode)
    (hname : nameF t = some rn)
    (hnodup : ((specPairs t none).map Prod.fst).Nodup) :
    (∀ e : GNode, e.id = some rn →
        clickHandler (flatten_tree_to_nodes_links t none none).1 rn e = none)
    ∧ (d ∈ (flatten_tree_to_nodes_links t none none).1 → d.parent = some rn →
        ∃ ctx, clickHandler (flatten_tree_to_nodes_links t none none).1 rn d = some ctx
             ∧ ctx.root_label = rn) := by
  constructor
  · intro e he
    simp [clickHandler, he]
  · intro hmem hpar
    have hne : d.id ≠ some rn := by
      have hpairs := flatten_nodes_pairs t none none
      have hin : (d.id, d.parent) ∈ specPairs t none := by
        rw [← hpairs]
        exact List.mem_map.mpr ⟨d, hmem, rfl⟩
      cases t with
      | mk n tt ty c =>
        simp only [nameF] at hname
        subst hname
        simp only [specPairs, List.mem_cons] at hin
        rcases hin with he | hi
        · exfalso
          have : d.parent = none := congrArg Prod.snd he
          rw [hpar] at this
          exact Option.noConfusion this
        · simp only [specPairs, List.map_cons, List.nodup_cons] at hnodup
          intro hid
          apply hnodup.1
          have hmm : d.id ∈ (specPairsChildren c (some rn)).map Prod.fst :=
            List.mem_map.mpr ⟨(d.id, d.parent), hi, rfl⟩
          rw [hid] at hmm
          exact hmm
    simp only [clickHandler, if_neg hne]
    refine ⟨_, rfl, ?_⟩
    rw [if_pos hpar]

/-- Witness for C5 at a concrete two-node tree. -/
theorem click_handler_spec_witness :
    clickHandler
      (flatten_tree_to_nodes_links
        (.mk (some (str "R")) none none
          (.clist (.cons (.mk (some (str "A")) none none .missing) .nil))) none none).1
      (str "R") ⟨some (str "R"), some [], [], none, none⟩ = none
    ∧ ∃ ctx,
        clickHandler
          (flatten_tree_to_nodes_links
            (.mk (some (str "R")) none none
              (.clist (.cons (.mk (some (str "A")) none none .missing) .nil))) none none).1
          (str "R") ⟨some (str "A"), some [], [], some (str "R"), some []⟩ = some ctx
        ∧ ctx.root_label = str "R" :=
  ⟨(click_handler_spec
      (.mk (some (str "R")) none none
        (.clist (.cons (.mk (some (str "A")) none none .missing) .nil)))
      (str "R") ⟨some (str "A"), some [], [], some (str "R"), some []⟩
      (by decide) (by decide)).1 ⟨some (str "R"), some [], [], none, none⟩ rfl,
   (click_handler_spec
      (.mk (some (str "R")) none none
        (.clist (.cons (.mk (some (str "A")) none none .missing) .nil)))
      (str "R") ⟨some (str "A"), some [], [], some (str "R"), some []⟩
      (by decide) (by decide)).2 (by decide) rfl⟩

section LabelWrapping

/-- Model of JavaScript String.split with a single-character separator:
empty pieces are kept, and splitting the empty string yields one empty
piece. -/
def splitOnChar (sep : Char) : Str → List Str
  | [] => [[]]
  | c :: rest =>
    if c = sep then [] :: splitOnChar sep rest
    else
      match splitOnChar sep rest with
      | h :: t => (c :: h) :: t
      | [] => [[c]]

/-- One step of the label-wrapping forEach of
create_multilevel_mindmap_html (src/app.py lines 179-186): when
(current + ' ' + word).trim() exceeds maxChars, push current.trim() and
restart from the word, else extend current.  On these labels
JavaScript String.trim agrees with pyStrip. -/
def wrapStep (maxChars : Nat) (st : List Str × Str) (word : Str) : List Str × Str :=
  if maxChars < (pyStrip (st.2 ++ ' ' :: word)).length
  then (st.1 ++ [pyStrip st.2], word)
  else (st.1, st.2 ++ ' ' :: word)

/-- The wrapped lines before the line-budget cut: fold the words, then
push the trimmed remainder when it is non-empty. -/
def rawLines (label : Str) (maxChars : Nat) : List Str :=
  let st := (splitOnChar ' ' label).foldl (wrapStep maxChars) ([], [])
  if (pyStrip st.2).isEmpty then st.1 else st.1 ++ [pyStrip st.2]

/-- Appends the ellipsis marker to the last line, as
lines[maxLines - 1] += "..." does on the sliced array. -/
def withEllipsis : List Str → List Str
  | [] => []
  | [l] => [l ++ ell]
  | l :: l2 :: ls => l :: withEllipsis (l2 :: ls)

/-- Model of the whole label-wrapping routine (src/app.py lines
171-192): wrap into raw lines, and when they exceed maxLines keep the
first maxLines lines with the ellipsis marker on the last. -/
def wrapLabel (label : Str) (maxChars maxLines : Nat) : List Str :=
  let lines := rawLines label maxChars
  if maxLines < lines.length then withEllipsis (lines.take maxLines) else lines

/-- The font size chosen in the same routine: the root gets 24px, other
nodes 20px (the character budget maxChars = 16 is shared). -/
def fontSize (isRoot : Bool) : Nat := if isRoot then 24 else 20

/-- A produced line is within the source's guarantee when it fits the
budget or contains no space (a single overlong word is emitted whole). -/
def safeLine (maxChars : Nat) (l : Str) : Prop := l.length ≤ maxChars ∨ ' ' ∉ l

example : wrapLabel (str "one two three four five six") 16 4
    = [str "one two three", str "four five six"] := by decide

example : wrapLabel (str "Supercalifragilisticexpialidocious") 16 4
    = [[], str "Supercalifragilisticexpialidocious"] := by decide

theorem splitOnChar_not_mem (sep : Char) :
    ∀ (s : Str), ∀ w ∈ splitOnChar sep s, sep ∉ w := by
  intro s
  induction s with
  | nil =>
    intro w hw
    simp only [splitOnChar, List.mem_singleton] at hw
    subst hw
    simp
  | cons c rest ih =>
    intro w hw
    simp only [splitOnChar] at hw
    by_cases hc : c = sep
    · rw [if_pos hc] at hw
      rcases List.mem_cons.mp hw with he | hi
      · subst he; simp
      · exact ih w hi
    · rw [if_neg hc] at hw
      cases hsp : splitOnChar sep rest with
      | nil =>
        rw [hsp] at hw
        simp only [List.mem_singleton] at hw
        subst hw
        simp only [List.mem_singleton]
        intro he
        exact hc he.symm
      | cons h t =>
        rw [hsp] at hw
        rcases List.mem_cons.mp hw with he | hi
        · subst he
          simp only [List.mem_cons, not_or]
          refine ⟨fun he => hc he.symm, ?_⟩
          exact ih h (by rw [hsp]; simp)
        · exact ih w (by rw [hsp]; simp [hi])

theorem wrap_fold_invariant (mc : Nat) :
    ∀ (ws : List Str) (st : List Str × Str),
      (∀ l ∈ st.1, safeLine mc l) → safeLine mc (pyStrip st.2) →
      (∀ w ∈ ws, ' ' ∉ w) →
      (∀ l ∈ (ws.foldl (wrapStep mc) st).1, safeLine mc l)
      ∧ safeLine mc (pyStrip (ws.foldl (wrapStep mc) st).2) := by
  intro ws
  induction ws with
  | nil => intro st h1 h2 _; exact ⟨h1, h2⟩
  | cons w ws ih =>
    intro st h1 h2 hws
    rw [List.foldl_cons]
    refine ih (wrapStep mc st w) ?_ ?_ (fun v hv => hws v (by simp [hv]))
    · intro l hl
      unfold wrapStep at hl
      by_cases hc : mc < (pyStrip (st.2 ++ ' ' :: w)).length
      · rw [if_pos hc] at hl
        simp only at hl
        rcases List.mem_append.mp hl with ho | hs
        · exact h1 l ho
        · simp only [List.mem_singleton] at hs
          subst hs
          exact h2
      · rw [if_neg hc] at hl
        exact h1 l hl
    · unfold wrapStep
      by_cases hc : mc < (pyStrip (st.2 ++ ' ' :: w)).length
      · rw [if_pos hc]
        right
        intro hsp
        exact hws w (by simp) (mem_pyStrip hsp)
      · rw [if_neg hc]
        left
        show (pyStrip (st.2 ++ ' ' :: w)).length ≤ mc
        omega

theorem rawLines_safe (label : Str) (mc : Nat) :
    ∀ l ∈ rawLines label mc, safeLine mc l := by
  intro l hl
  have hinv := wrap_fold_invariant mc (splitOnChar ' ' label) ([], [])
    (by intro x hx; simp at hx)
    (by left; simp [pyStrip])
    (fun w hw => splitOnChar_not_mem ' ' label w hw)
  unfold rawLines at hl
  by_cases he : (pyStrip ((splitOnChar ' ' label).foldl (wrapStep mc) ([], [])).2).isEmpty
  · rw [if_pos he] at hl
    exact hinv.1 l hl
  · rw [if_neg he] at hl
    rcases List.mem_append.mp hl with ho | hs
    · exact hinv.1 l ho
    · simp only [List.mem_singleton] at hs
      subst hs
      exact hinv.2

theorem withEllipsis_length : ∀ (ls : List Str), (withEllipsis ls).length = ls.length
  | [] => rfl
  | [l] => rfl
  | l :: l2 :: ls => by
    simp only [withEllipsis, List.length_cons]
    rw [withEllipsis_length (l2 :: ls)]
    simp

theorem withEllipsis_mem {P : Str → Prop} :
    ∀ (ls : List Str), (∀ l ∈ ls, P l) →
      ∀ x ∈ withEllipsis ls, ∃ core, (x = core ++ ell ∨ x = core) ∧ P core
  | [], _ => by intro x hx; simp [withEllipsis] at hx
  | [l], h => by
    intro x hx
    simp only [withEllipsis, List.mem_singleton] at hx
    exact ⟨l, Or.inl hx, h l (by simp)⟩
  | l :: l2 :: ls, h => by
    intro x hx
    simp only [withEllipsis, List.mem_cons] at hx
    rcases hx with he | hi
    · exact ⟨l, Or.inr he, h l (by simp)⟩
    · exact withEllipsis_mem (l2 :: ls) (fun v hv => h v (by simp [List.mem_cons] at hv ⊢; tauto))
        x hi

theorem withEllipsis_last : ∀ (ls : List Str), ls ≠ [] →
    ∃ init last, withEllipsis ls = init ++ [last ++ ell]
  | [], h => absurd rfl h
  | [l], _ => ⟨[], l, rfl⟩
  | l :: l2 :: ls, _ => by
    obtain ⟨init, last, hsuff⟩ := withEllipsis_last (l2 :: ls) (by simp)
    exact ⟨l :: init, last, by simp [withEllipsis, hsuff]⟩

end LabelWrapping

/-- C6 counterexample: the label-wrapping of a label consisting of one
34-character word produces a line of 34 characters, exceeding the
16-character budget (even with the 3-character ellipsis allowance), so
not every produced line stays within the per-line budget. -/
theorem label_wrapping_cex :
    ∃ line ∈ wrapLabel (str "Supercalifragilisticexpialidocious") 16 4,
      16 + 3 < line.length := by decide

/-- C6 amended: label wrapping is a pure function of the label and the
two budgets (the same budgets for root and non-root; the root differs
only in font size, 24 versus 20); the number of produced lines never
exceeds the line budget; every produced line is, apart from an optional
trailing ellipsis marker, either within the per-line character budget or
a single word with no space in it (an overlong word is emitted whole);
and whenever the raw wrapping exceeds the line budget, the output is cut
to the budget and its last line carries the ellipsis marker. -/
theorem label_wrapping_spec :
    ∀ (label : Str) (maxChars maxLines : Nat),
      (wrapLabel label maxChars maxLines).length ≤ maxLines
      ∧ (∀ line ∈ wrapLabel label maxChars maxLines,
          ∃ core mark, line = core ++ mark ∧ (mark = [] ∨ mark = ell)
            ∧ safeLine maxChars core)
      ∧ (1 ≤ maxLines → maxLines < (rawLines label maxChars).length →
          ∃ init core, wrapLabel label maxChars maxLines = init ++ [core ++ ell])
      ∧ fontSize true = 24 ∧ fontSize false = 20 := by
  intro label mc ml
  refine ⟨?_, ?_, ?_, rfl, rfl⟩
  · unfold wrapLabel
    by_cases hc : ml < (rawLines label mc).length
    · rw [if_pos hc, withEllipsis_length, List.length_take]
      omega
    · rw [if_neg hc]
      omega
  · intro line hline
    unfold wrapLabel at hline
    by_cases hc : ml < (rawLines label mc).length
    · rw [if_pos hc] at hline
      obtain ⟨core, hor, hsafe⟩ := withEllipsis_mem ((rawLines label mc).take ml)
        (fun v hv => rawLines_safe label mc v (List.mem_of_mem_take hv)) line hline
      rcases hor with he | he
      · exact ⟨core, ell, he, Or.inr rfl, hsafe⟩
      · exact ⟨core, [], by simp [he], Or.inl rfl, hsafe⟩
    · rw [if_neg hc] at hline
      exact ⟨line, [], by simp, Or.inl rfl, rawLines_safe label mc line hline⟩
  · intro hml hc
    unfold wrapLabel
    rw [if_pos hc]
    have hne : (rawLines label mc).take ml ≠ [] := by
      have : ((rawLines label mc).take ml).length = ml := by
        rw [List.length_take]
        omega
      intro he
      rw [he] at this
      simp at this
      omega
    obtain ⟨init, last, hlast⟩ := withEllipsis_last _ hne
    exact ⟨init, last, hlast⟩

/-- Witness for the amended C6 at a concrete label and budgets. -/
theorem label_wrapping_spec_witness :
    (wrapLabel (str "aa bb cc dd ee") 2 2).length ≤ 2
    ∧ ∃ init core, wrapLabel (str "aa bb cc dd ee") 2 2 = init ++ [core ++ ell] :=
  ⟨(label_wrapping_spec (str "aa bb cc dd ee") 2 2).1,
   (label_wrapping_spec (str "aa bb cc dd ee") 2 2).2.2.1 (by decide) (by decide)⟩

section EndToEnd

/-- A 200-character tooltip: forty copies of "word " . -/
def tooltip200 : Str := (List.replicate 40 (str "word ")).foldr (· ++ ·) []

/-- The end-to-end scenario tree: a root carrying the 200-character
tooltip and two branches of two nodes each — five nodes in total. -/
def scenarioTree : InsightNode :=
  .mk (some (str "Root")) (some (some tooltip200)) none
    (.clist (.cons
      (.mk (some (str "B1")) none none
        (.clist (.cons (.mk (some (str "L1")) none none .missing) .nil)))
      (.cons
        (.mk (some (str "B2")) none none
          (.clist (.cons (.mk (some (str "L2")) none none .missing) .nil)))
        .nil)))

/-- The number of non-empty lines of a rendered text. -/
def countNonEmptyLines (s : Str) : Nat :=
  (splitOnChar '\n' s).countP (fun l => !l.isEmpty)

end EndToEnd

set_option maxRecDepth 20000 in
/-- C4 counterexample: in the end-to-end scenario (200-character root
tooltip, two two-node branches, five nodes), the plain-text export of
the normalized tree does not have exactly 5 non-empty lines: the root's
non-empty tooltip contributes an extra parenthesized line. -/
theorem end_to_end_five_lines_cex :
    tooltip200.length = 200
    ∧ nodeCount scenarioTree = 5
    ∧ ¬ (countNonEmptyLines (tree_to_text (process_tree_tooltips scenarioTree 120) 0) = 5) := by
  refine ⟨by decide, by decide, by decide⟩

set_option maxRecDepth 20000 in
/-- C4 amended: in the end-to-end scenario the normalized root tooltip
has length at most 123 (here 122), flattening the normalized tree yields
exactly 5 nodes and 4 edges, and the plain-text export has exactly 6
non-empty lines: one name line per node plus one tooltip line for the
root. -/
theorem end_to_end_scenario :
    tooltip200.length = 200
    ∧ tooltipF (process_tree_tooltips scenarioTree 120)
        = some (some (truncate_tooltip (some tooltip200) 120))
    ∧ (truncate_tooltip (some tooltip200) 120).length ≤ 123
    ∧ ((flatten_tree_to_nodes_links (process_tree_tooltips scenarioTree 120) none none).1).length = 5
    ∧ ((flatten_tree_to_nodes_links (process_tree_tooltips scenarioTree 120) none none).2).length = 4
    ∧ countNonEmptyLines (tree_to_text (process_tree_tooltips scenarioTree 120) 0) = 6 := by
  refine ⟨by decide, rfl, by decide, by decide, by decide, by decide⟩

section HeapModel

/-- A node dict as a heap record: the four modelled fields, with child
dicts referred to by heap address.  A heap is a list of records and an
address is an index into it. -/
structure NodeRec where
  rname : Option Str
  rtooltip : Option (Option Str)
  rtype : Option Str
  rchildren : Option (Option (List Nat))
deriving DecidableEq, Repr

/-- The child addresses stored in a record (none when the children field
is absent or None). -/
def recChildAddrs (r : NodeRec) : List Nat :=
  match r.rchildren with
  | some (some l) => l
  | _ => []

mutual
/-- The record at address a in heap h carries exactly the fields of the
given tree node, its children list (when present and non-None) pointing
at addresses representing the child trees. -/
def represents (h : List NodeRec) (a : Nat) : InsightNode → Bool
  | .mk n tt ty c =>
    match h.get? a with
    | none => false
    | some r =>
      decide (r.rname = n) && decide (r.rtooltip = tt) && decide (r.rtype = ty)
        && repChildren h r.rchildren c
/-- Representation of a children field by a stored children value. -/
def repChildren (h : List NodeRec) (rc : Option (Option (List Nat))) : Children → Bool
  | .missing => decide (rc = none)
  | .null => decide (rc = some none)
  | .clist ks =>
    match rc with
    | some (some addrs) => repList h addrs ks
    | _ => false
/-- Representation of a children list by a list of addresses. -/
def repList (h : List NodeRec) : List Nat → ChildList → Bool
  | addrs, .nil => decide (addrs = [])
  | addrs, .cons k ks =>
    match addrs with
    | [] => false
    | a :: rest => represents h a k && repList h rest ks
end

mutual
/-- Heap rendering of process_tree_tooltips: tree = dict(tree) allocates
a fresh record per visited node (never writing to an existing address),
with the truncated tooltip and, for a present non-None children field, a
rebuilt list of freshly allocated child addresses.  Returns the extended
heap and the address of the new root record. -/
def allocProcess (m : Nat) (h : List NodeRec) : InsightNode → List NodeRec × Nat
  | .mk n tt ty c =>
    match c with
    | .missing =>
      (h ++ [⟨n, some (some (truncate_tooltip (getTooltip tt) m)), ty, none⟩], h.length)
    | .null =>
      (h ++ [⟨n, some (some (truncate_tooltip (getTooltip tt) m)), ty, some none⟩], h.length)
    | .clist ks =>
      let r := allocKids m h ks
      (r.1 ++ [⟨n, some (some (truncate_tooltip (getTooltip tt) m)), ty, some (some r.2)⟩],
       r.1.length)
/-- Sequential allocation of the normalized copies of a children list. -/
def allocKids (m : Nat) (h : List NodeRec) : ChildList → List NodeRec × List Nat
  | .nil => (h, [])
  | .cons k ks =>
    let rk := allocProcess m h k
    let rrest := allocKids m rk.1 ks
    (rrest.1, rk.2 :: rrest.2)
end

mutual
theorem allocProcess_spec : ∀ (t : InsightNode) (m : Nat) (h : List NodeRec),
    ∃ ext, (allocProcess m h t).1 = h ++ ext
      ∧ h.length ≤ (allocProcess m h t).2
      ∧ (allocProcess m h t).2 < h.length + ext.length
      ∧ ∀ r ∈ ext, ∀ ad ∈ recChildAddrs r, h.length ≤ ad
  | .mk n tt ty .missing, m, h => by
    refine ⟨[⟨n, some (some (truncate_tooltip (getTooltip tt) m)), ty, none⟩], rfl, ?_, ?_, ?_⟩
    · simp [allocProcess]
    · simp [allocProcess]
    · intro r hr ad had
      simp only [List.mem_singleton] at hr
      subst hr
      simp [recChildAddrs] at had
  | .mk n tt ty .null, m, h => by
    refine ⟨[⟨n, some (some (truncate_tooltip (getTooltip tt) m)), ty, some none⟩],
      rfl, ?_, ?_, ?_⟩
    · simp [allocProcess]
    · simp [allocProcess]
    · intro r hr ad had
      simp only [List.mem_singleton] at hr
      subst hr
      simp [recChildAddrs] at had
  | .mk n tt ty (.clist ks), m, h => by
    obtain ⟨e, he, haddr, hrec⟩ := allocKids_spec ks m h
    simp only [allocProcess]
    refine ⟨e ++ [⟨n, some (some (truncate_tooltip (getTooltip tt) m)), ty,
        some (some (allocKids m h ks).2)⟩], ?_, ?_, ?_, ?_⟩
    · rw [he, List.append_assoc]
    · rw [he]
      simp
    · rw [he]
      simp
    · intro r hr ad had
      rcases List.mem_append.mp hr with hi | hs
      · exact hrec r hi ad had
      · simp only [List.mem_singleton] at hs
        subst hs
        simp only [recChildAddrs] at had
        exact (haddr ad had).1
theorem allocKids_spec : ∀ (ks : ChildList) (m : Nat) (h : List NodeRec),
    ∃ ext, (allocKids m h ks).1 = h ++ ext
      ∧ (∀ a ∈ (allocKids m h ks).2, h.length ≤ a ∧ a < h.length + ext.length)
      ∧ ∀ r ∈ ext, ∀ ad ∈ recChildAddrs r, h.length ≤ ad
  | .nil, m, h => by
    refine ⟨[], by simp [allocKids], ?_, ?_⟩
    · intro a ha
      simp [allocKids] at ha
    · intro r hr
      simp at hr
  | .cons k ks, m, h => by
    obtain ⟨e1, he1, ha1, hlt1, hr1⟩ := allocProcess_spec k m h
    obtain ⟨e2, he2, ha2, hr2⟩ := allocKids_spec ks m (allocProcess m h k).1
    simp only [allocKids]
    refine ⟨e1 ++ e2, ?_, ?_, ?_⟩
    · rw [he2, he1, List.append_assoc]
    · intro a ha
      simp only [List.mem_cons] at ha
      rcases ha with he | hi
      · subst he
        constructor
        · exact ha1
        · simp only [List.length_append]
          omega
      · have := ha2 a hi
        rw [he1] at this
        simp only [List.length_append] at this ⊢
        omega
    · intro r hr ad had
      rcases List.mem_append.mp hr with hi | hi
      · exact hr1 r hi ad had
      · have := hr2 r hi ad had
        rw [he1] at this
        simp only [List.length_append] at this
        omega
end

mutual
theorem represents_mono : ∀ (t : InsightNode) (h ext : List NodeRec) (a : Nat),
    represents h a t = true → represents (h ++ ext) a t = true
  | .mk n tt ty c, h, ext, a, hrep => by
    simp only [represents] at hrep ⊢
    cases hget : h.get? a with
    | none => rw [hget] at hrep; simp at hrep
    | some r =>
      rw [hget] at hrep
      have hlt : a < h.length := (List.get?_eq_some.mp hget).1
      rw [List.get?_append hlt, hget]
      simp only [Bool.and_eq_true] at hrep ⊢
      exact ⟨hrep.1, repChildren_mono c h ext r.rchildren hrep.2⟩
theorem repChildren_mono : ∀ (c : Children) (h ext : List NodeRec)
    (rc : Option (Option (List Nat))),
    repChildren h rc c = true → repChildren (h ++ ext) rc c = true
  | .missing, _, _, _, hrep => hrep
  | .null, _, _, _, hrep => hrep
  | .clist ks, h, ext, rc, hrep => by
    simp only [repChildren] at hrep ⊢
    cases rc with
    | none => simp at hrep
    | some rc2 =>
      cases rc2 with
      | none => simp at hrep
      | some addrs => exact repList_mono ks h ext addrs hrep
theorem repList_mono : ∀ (ks : ChildList) (h ext : List NodeRec) (addrs : List Nat),
    repList h addrs ks = true → repList (h ++ ext) addrs ks = true
  | .nil, _, _, _, hrep => hrep
  | .cons k ks, h, ext, addrs, hrep => by
    simp only [repList] at hrep ⊢
    cases addrs with
    | nil => simp at hrep
    | cons a rest =>
      simp only [Bool.and_eq_true] at hrep ⊢
      exact ⟨represents_mono k h ext a hrep.1, repList_mono ks h ext rest hrep.2⟩
end

mutual
theorem allocProcess_represents : ∀ (t : InsightNode) (m : Nat) (h : List NodeRec),
    represents (allocProcess m h t).1 (allocProcess m h t).2
      (process_tree_tooltips t m) = true
  | .mk n tt ty .missing, m, h => by
    simp only [allocProcess, process_tree_tooltips, processChildren, represents]
    rw [List.get?_concat_length]
    simp [repChildren]
  | .mk n tt ty .null, m, h => by
    simp only [allocProcess, process_tree_tooltips, processChildren, represents]
    rw [List.get?_concat_length]
    simp [repChildren]
  | .mk n tt ty (.clist ks), m, h => by
    simp only [allocProcess, process_tree_tooltips, processChildren, represents]
    rw [List.get?_concat_length]
    simp only [decide_eq_true_eq, Bool.and_eq_true, repChildren]
    refine ⟨by simp, ?_⟩
    exact repList_mono (processList ks m) (allocKids m h ks).1 _ (allocKids m h ks).2
      (allocKids_represents ks m h)
theorem allocKids_represents : ∀ (ks : ChildList) (m : Nat) (h : List NodeRec),
    repList (allocKids m h ks).1 (allocKids m h ks).2 (processList ks m) = true
  | .nil, m, h => by simp [allocKids, processList, repList]
  | .cons k ks, m, h => by
    simp only [allocKids, processList, repList, Bool.and_eq_true]
    constructor
    · obtain ⟨e2, he2, _, _⟩ := allocKids_spec ks m (allocProcess m h k).1
      rw [he2]
      exact represents_mono (process_tree_tooltips k m) _ e2 _
        (allocProcess_represents k m h)
    · exact allocKids_represents ks m (allocProcess m h k).1
end

end HeapModel

/-- C9: heap-level frame property of tree normalization.  Starting from
any heap in which address a represents the input tree, normalization
only allocates: the original records are all unchanged (the old prefix
of the heap is preserved, so the input tree, its tooltips and its
children fields are untouched, and address a still represents it), the
returned root address is fresh, every allocated record points only at
freshly allocated children, and the fresh root represents exactly the
normalized tree. -/
theorem process_heap_frame (t : InsightNode) (m : Nat) (h : List NodeRec) (a : Nat)
    (hrep : represents h a t = true) :
    ((allocProcess m h t).1).take h.length = h
    ∧ h.length ≤ (allocProcess m h t).2
    ∧ (∃ ext, (allocProcess m h t).1 = h ++ ext
        ∧ ∀ r ∈ ext, ∀ ad ∈ recChildAddrs r, h.length ≤ ad)
    ∧ represents (allocProcess m h t).1 (allocProcess m h t).2
        (process_tree_tooltips t m) = true
    ∧ represents (allocProcess m h t).1 a t = true := by
  obtain ⟨ext, hext, hge, _, hrecs⟩ := allocProcess_spec t m h
  refine ⟨?_, hge, ⟨ext, hext, hrecs⟩, allocProcess_represents t m h, ?_⟩
  · rw [hext, List.take_left]
  · rw [hext]
    exact represents_mono t h ext a hrep

/-- Witness for C9 at a one-record heap representing a one-node tree. -/
theorem process_heap_frame_witness :
    ((allocProcess 120 [⟨some (str "A"), none, none, none⟩]
        (.mk (some (str "A")) none none .missing)).1).take
        (List.length [(⟨some (str "A"), none, none, none⟩ : NodeRec)])
      = [⟨some (str "A"), none, none, none⟩]
    ∧ represents (allocProcess 120 [⟨some (str "A"), none, none, none⟩]
        (.mk (some (str "A")) none none .missing)).1
        (allocProcess 120 [⟨some (str "A"), none, none, none⟩]
          (.mk (some (str "A")) none none .missing)).2
        (process_tree_tooltips (.mk (some (str "A")) none none .missing) 120) = true :=
  ⟨(process_heap_frame (.mk (some (str "A")) none none .missing) 120
      [⟨some (str "A"), none, none, none⟩] 0 (by decide)).1,
   (process_heap_frame (.mk (some (str "A")) none none .missing) 120
      [⟨some (str "A"), none, none, none⟩] 0 (by decide)).2.2.2.1⟩

end BubbleDive
